import Mathlib

/-!
# cpp-master-course: `ts_queue` (task_1) and `lf_stack` (task_2)

A shallow embedding of the two containers of the repository and the proofs of
their specified properties.

* `ts_queue<T>` (src/task_1/main.cpp): every member function takes `m_mutex`
  for its whole body, so a member call is one atomic transition on `m_data`.
  The `std::deque<T>` is a `List T` whose head is the front of the deque.
* `lf_stack` (src/task_2/main.cpp): a chain of immutable nodes reached from the
  atomic `m_head`.
-/

set_option autoImplicit false

/-! ## task_1: `ts_queue` -/

/-- The class `ts_queue<T>`: the only data member that carries state is `m_data`
(front of the deque = head of the list). -/
structure ts_queue (T : Type) where
  m_data : List T
deriving DecidableEq

namespace ts_queue

variable {T : Type}

/-- Constructor `ts_queue() = default`: the deque is default-constructed, i.e. empty. -/
def ctor : ts_queue T := ⟨[]⟩

/-- Constructor `ts_queue(size_t sz) : m_data(sz) {}`: `std::deque<T>(sz)` holds `sz`
value-initialised elements; `default` stands for `T()`. -/
def ctor_sz [Inhabited T] (sz : Nat) : ts_queue T := ⟨List.replicate sz default⟩

/-- Member `void push(const T& val)`: `m_data.emplace_back(val)` under the lock
(`notify_one` changes no data). -/
def push (q : ts_queue T) (val : T) : ts_queue T := ⟨q.m_data ++ [val]⟩

/-- Member `bool front(T& obj) const`: returns the flag and the content of `obj` after
the call; `obj` is left untouched when the deque is empty. -/
def front (q : ts_queue T) (obj : T) : Bool × T :=
  match q.m_data with
  | [] => (false, obj)
  | x :: _ => (true, x)

/-- Member `bool try_pop(T& obj)`: the queue after the call, the returned flag and the
content of `obj` after the call. -/
def try_pop (q : ts_queue T) (obj : T) : ts_queue T × Bool × T :=
  match q.m_data with
  | [] => (q, false, obj)
  | x :: rest => (⟨rest⟩, true, x)

/-- The state of a thread inside `wait_and_pop`: suspended in `m_cond.wait`, or
returned with the value `tmp`. -/
inductive Waiter (T : Type) where
  | blocked : Waiter T
  | returned (tmp : T) : Waiter T
deriving DecidableEq

/-- One evaluation, under the lock, of the body of `wait_and_pop` from the
predicate on: `m_cond.wait(lk, pred)` is `while (!pred()) wait(lk);`, so the
predicate `!m_data.empty()` is evaluated at entry and again after every return
of `wait(lk)`.  When it is false the thread suspends (again); when it is true
the thread copies the front, pops it and returns. -/
def wait_and_pop_check (q : ts_queue T) : ts_queue T × Waiter T :=
  match q.m_data with
  | [] => (q, Waiter.blocked)
  | x :: rest => (⟨rest⟩, Waiter.returned x)

/-- Member `T wait_and_pop()` called with no other thread running: the predicate is
evaluated at entry; `none` means the caller stays suspended (nobody can push). -/
def wait_and_pop (q : ts_queue T) : Option (ts_queue T × T) :=
  match wait_and_pop_check q with
  | (q1, Waiter.returned tmp) => some (q1, tmp)
  | (_, Waiter.blocked) => none

/-- Member `bool empty() const`. -/
def empty (q : ts_queue T) : Bool := q.m_data.isEmpty

/-- Member `size_t size() const`. -/
def size (q : ts_queue T) : Nat := q.m_data.length

/-- A member call on the queue, with its arguments (`obj` is the content of the
out-parameter before the call). -/
inductive Op (T : Type) where
  | push (val : T) : Op T
  | try_pop (obj : T) : Op T
  | wait_and_pop : Op T
  | front (obj : T) : Op T
  | empty : Op T
  | size : Op T
deriving DecidableEq

/-- What a member call gives back to its caller. -/
inductive Res (T : Type) where
  | push : Res T
  | try_pop (ret : Bool) (obj : T) : Res T
  | wait_and_pop (tmp : T) : Res T
  | front (ret : Bool) (obj : T) : Res T
  | empty (ret : Bool) : Res T
  | size (ret : Nat) : Res T
deriving DecidableEq

/-- One member call executed atomically (the whole body runs under `m_mutex`).
`none`: a `wait_and_pop` on an empty queue, which does not return. -/
def apply (q : ts_queue T) : Op T → Option (ts_queue T × Res T)
  | Op.push val => some (q.push val, Res.push)
  | Op.try_pop obj =>
    match q.try_pop obj with
    | (q1, ret, obj1) => some (q1, Res.try_pop ret obj1)
  | Op.wait_and_pop =>
    match q.wait_and_pop with
    | some (q1, tmp) => some (q1, Res.wait_and_pop tmp)
    | none => none
  | Op.front obj =>
    match q.front obj with
    | (ret, obj1) => some (q, Res.front ret obj1)
  | Op.empty => some (q, Res.empty q.empty)
  | Op.size => some (q, Res.size q.size)

/-- A sequence of member calls applied one at a time; the results are listed in
call order. -/
def run (q : ts_queue T) : List (Op T) → Option (ts_queue T × List (Res T))
  | [] => some (q, [])
  | op :: ops =>
    match q.apply op with
    | none => none
    | some (q1, r) =>
      match run q1 ops with
      | none => none
      | some (q2, rs) => some (q2, r :: rs)

/-- The values handed to `push`, in call order. -/
def pushed : List (Op T) → List T
  | [] => []
  | Op.push val :: ops => val :: pushed ops
  | _ :: ops => pushed ops

/-- The values given back by the successful pops (`try_pop` returning true,
`wait_and_pop` returning), in call order. -/
def popped : List (Res T) → List T
  | [] => []
  | Res.try_pop true obj :: rs => obj :: popped rs
  | Res.wait_and_pop tmp :: rs => tmp :: popped rs
  | _ :: rs => popped rs

/-- Whether the call is one that never suspends (everything but `wait_and_pop`). -/
def Op.nonblocking : Op T → Bool
  | Op.wait_and_pop => false
  | _ => true

/-- The pre-sized queue as the specification words it: an empty queue onto which
`sz` default-valued entries were pushed. -/
def presized_spec [Inhabited T] : Nat → ts_queue T
  | 0 => ctor
  | sz + 1 => (presized_spec sz).push default

/-- What can happen while a thread is inside `wait_and_pop`: another thread
completes a `push`, or the waiting thread is woken (by a notification or
spuriously) and re-acquires the lock. -/
inductive Event (T : Type) where
  | push (val : T) : Event T
  | wakeup : Event T
deriving DecidableEq

/-- A queue together with one thread that has called `wait_and_pop`. -/
structure Blocking (T : Type) where
  queue : ts_queue T
  waiter : Waiter T
deriving DecidableEq

/-- The call of `wait_and_pop`: the lock is taken and the predicate evaluated. -/
def Blocking.enter (q : ts_queue T) : Blocking T :=
  match wait_and_pop_check q with
  | (q1, w) => ⟨q1, w⟩

/-- One event.  A wakeup of the suspended thread makes it evaluate the predicate
again under the lock; a thread that has returned is no longer waiting. -/
def Blocking.step (b : Blocking T) : Event T → Blocking T
  | Event.push val => ⟨b.queue.push val, b.waiter⟩
  | Event.wakeup =>
    match b.waiter with
    | Waiter.blocked =>
      match wait_and_pop_check b.queue with
      | (q1, w) => ⟨q1, w⟩
    | Waiter.returned _ => b

/-- A sequence of events. -/
def Blocking.run (b : Blocking T) : List (Event T) → Blocking T
  | [] => b
  | e :: es => Blocking.run (b.step e) es

end ts_queue

/-! ## task_2: `lf_stack` -/

/-- A `std::shared_ptr<Node>`: null, or a pointer to a `Node{next, value}`.
A node is written once, by `make_shared<Node>(old, value)`, and no statement of
the program assigns to `next` or `value` afterwards, so holding the pointer is
holding the node.  `addr` is the identity of the allocation: pointers are
compared by it. -/
inductive NodePtr where
  | null : NodePtr
  | node (addr : Nat) (next : NodePtr) (value : Int) : NodePtr
deriving DecidableEq

namespace NodePtr

/-- Pointer comparison as done by `compare_exchange_weak` and by `!= nullptr`:
both null, or both the same allocation. -/
def same : NodePtr → NodePtr → Bool
  | null, null => true
  | node a _ _, node b _ _ => a == b
  | _, _ => false

/-- The nodes met by following `next` from the pointer to null, top first. -/
def chain : NodePtr → List NodePtr
  | null => []
  | node addr next value => node addr next value :: chain next

/-- The values stored along the chain, top first. -/
def values : NodePtr → List Int
  | null => []
  | node _ next value => value :: values next

/-- The field `addr` of a node (0 for null, which has none). -/
def addrOf : NodePtr → Nat
  | null => 0
  | node addr _ _ => addr

/-- The field `value` of a node (0 for null, which has none). -/
def valueOf : NodePtr → Int
  | null => 0
  | node _ _ value => value

/-- The field `next` of a node (null for null). -/
def nextOf : NodePtr → NodePtr
  | null => null
  | node _ next _ => next

end NodePtr

/-- The call `m_head.compare_exchange_weak(expected, desired)` on an atomic holding
`head`.  `spurious` says whether this call fails although the comparison holds
(which the weak form may do).  Result: the returned flag, the content of the
atomic after the call and the content of `expected` after the call (refreshed
with the content of the atomic on failure). -/
def compare_exchange_weak (head expected desired : NodePtr) (spurious : Bool) :
    Bool × NodePtr × NodePtr :=
  if head.same expected && !spurious then (true, desired, expected)
  else (false, head, head)

/-- The class `lf_stack`: the atomic `m_head`; `fresh` is the address the next
`make_shared` hands out (an address is never handed out twice while a pointer to
the earlier allocation may still exist, which reference counting guarantees). -/
structure lf_stack where
  m_head : NodePtr
  fresh : Nat
deriving DecidableEq

namespace lf_stack

/-- Constructor `lf_stack() {}`: `m_head` is null. -/
def ctor : lf_stack := ⟨NodePtr.null, 0⟩

/-- The `do { tmp = make_shared<Node>(old, value); } while (!CAS(old, tmp))`
loop of `push` when no other thread touches `m_head`.  Each element of the list
is the spurious-failure flag of one `compare_exchange_weak`; `none` when the
list ends before a call succeeds (the loop is still running). -/
def pushLoop (head : NodePtr) (fresh : Nat) (old : NodePtr) (value : Int) :
    List Bool → Option lf_stack
  | [] => none
  | spurious :: rest =>
    match compare_exchange_weak head old (NodePtr.node fresh old value) spurious with
    | (true, head1, _) => some ⟨head1, fresh + 1⟩
    | (false, head1, old1) => pushLoop head1 (fresh + 1) old1 value rest

/-- Member `void push(int value)` with no concurrent operation: `old = m_head.load()`,
then the loop. -/
def push (s : lf_stack) (value : Int) (cas : List Bool) : Option lf_stack :=
  pushLoop s.m_head s.fresh s.m_head value cas

/-- The loop `while (node != nullptr && !CAS(node, node->next));` of `pop` when
no other thread touches `m_head`: the content of `m_head` and of `node` when the
loop is left; `none` when the list of spurious-failure flags ends first. -/
def popLoop (head node : NodePtr) : List Bool → Option (NodePtr × NodePtr) :=
  fun cas =>
  match node, cas with
  | NodePtr.null, _ => some (head, NodePtr.null)
  | NodePtr.node _ _ _, [] => none
  | NodePtr.node addr next value, spurious :: rest =>
    match compare_exchange_weak head (NodePtr.node addr next value) next spurious with
    | (true, head1, node1) => some (head1, node1)
    | (false, head1, node1) => popLoop head1 node1 rest

/-- Member `bool pop(int& value)` with no concurrent operation: the stack after the
call, the returned flag and the content of `value` after the call. -/
def pop (s : lf_stack) (value : Int) (cas : List Bool) : Option (lf_stack × Bool × Int) :=
  match popLoop s.m_head s.m_head cas with
  | none => none
  | some (head1, NodePtr.null) => some (⟨head1, s.fresh⟩, false, value)
  | some (head1, NodePtr.node _ _ v) => some (⟨head1, s.fresh⟩, true, v)

/-- The loop `while (head != nullptr) { head = head->next; s++; }` of `size`.
The counter is a `size_t`; it cannot wrap, the chain having fewer nodes than
there are addresses. -/
def sizeLoop : NodePtr → Nat → Nat
  | NodePtr.null, s => s
  | NodePtr.node _ next _, s => sizeLoop next (s + 1)

/-- Member `size_t size() const`. -/
def size (s : lf_stack) : Nat := sizeLoop s.m_head 0

/-- A call on the stack with no concurrent operation: its argument (for `pop`,
the content of the out-parameter before the call) and the spurious-failure flags
of the `compare_exchange_weak` calls it makes. -/
inductive Op where
  | push (value : Int) (cas : List Bool) : Op
  | pop (value : Int) (cas : List Bool) : Op
deriving DecidableEq

/-- What a call gives back to its caller. -/
inductive Res where
  | push : Res
  | pop (ret : Bool) (value : Int) : Res
deriving DecidableEq

/-- The spurious-failure flags of a call. -/
def Op.cas : Op → List Bool
  | Op.push _ cas => cas
  | Op.pop _ cas => cas

/-- One call run to completion. -/
def apply (s : lf_stack) : Op → Option (lf_stack × Res)
  | Op.push value cas =>
    match s.push value cas with
    | none => none
    | some s1 => some (s1, Res.push)
  | Op.pop value cas =>
    match s.pop value cas with
    | none => none
    | some (s1, ret, value1) => some (s1, Res.pop ret value1)

/-- Calls executed one at a time, results in call order. -/
def run (s : lf_stack) : List Op → Option (lf_stack × List Res)
  | [] => some (s, [])
  | op :: ops =>
    match s.apply op with
    | none => none
    | some (s1, r) =>
      match run s1 ops with
      | none => none
      | some (s2, rs) => some (s2, r :: rs)

/-- Number of `push` calls. -/
def pushes : List Op → Nat
  | [] => 0
  | Op.push _ _ :: ops => pushes ops + 1
  | Op.pop _ _ :: ops => pushes ops

/-- Number of `pop` calls that returned true. -/
def pops : List Res → Nat
  | [] => 0
  | Res.pop true _ :: rs => pops rs + 1
  | _ :: rs => pops rs

/-- The loop of `push` while other threads run: each element of the list is one
`compare_exchange_weak`, given by the content of `m_head` when it executes and
its spurious-failure flag.  Result: the node installed and the content of
`m_head` it replaced; `none` when the list ends before a call succeeds. -/
def pushObserved (fresh : Nat) (old : NodePtr) (value : Int) :
    List (NodePtr × Bool) → Option (NodePtr × NodePtr)
  | [] => none
  | (head, spurious) :: rest =>
    match compare_exchange_weak head old (NodePtr.node fresh old value) spurious with
    | (true, head1, _) => some (head1, head)
    | (false, _, old1) => pushObserved (fresh + 1) old1 value rest

/-- The content of `old` after the compare-and-swaps of the list have all
failed: the head delivered by the last of them, or the initial load. -/
def lastSeen (old : NodePtr) : List (NodePtr × Bool) → NodePtr
  | [] => old
  | (head, _) :: rest => lastSeen head rest

/-- Whether every compare-and-swap of the list fails, `old` being the content of
the expected value before the first. -/
def allFail (old : NodePtr) : List (NodePtr × Bool) → Bool
  | [] => true
  | (head, spurious) :: rest => !(head.same old && !spurious) && allFail head rest

/-! ### Threads running `push` and `pop` concurrently

The shared accesses of `push` and `pop` are the initial `m_head.load()` and the
`compare_exchange_weak` calls; each is one atomic step.  What a thread does
between two of them (allocating `tmp`, reading `node->next`, testing
`node != nullptr`, copying `node->value`, returning) touches no shared mutable
data and is executed together with the preceding or following shared access. -/

/-- Where a thread is. -/
inductive Local where
  | idle : Local
  | in_push (old : NodePtr) (value : Int) : Local
  | in_pop (node : NodePtr) : Local
deriving DecidableEq

/-- A step of thread `t`: it calls `push(value)` and loads `m_head`; it calls
`pop` and loads `m_head`; it executes the `compare_exchange_weak` it is at. -/
inductive Event where
  | call_push (t : Nat) (value : Int) : Event
  | call_pop (t : Nat) : Event
  | cas (t : Nat) (spurious : Bool) : Event
deriving DecidableEq

/-- A completed call: `push` of thread `t` having installed `tmp`; `pop` of
thread `t` having returned true with `node` unlinked and `value` written; `pop`
of thread `t` having returned false. -/
inductive Done where
  | push (t : Nat) (tmp : NodePtr) : Done
  | pop_true (t : Nat) (node : NodePtr) (value : Int) : Done
  | pop_false (t : Nat) : Done
deriving DecidableEq

/-- The stack shared by the threads, the threads, and the history of completed
calls (oldest first). -/
structure System where
  m_head : NodePtr
  fresh : Nat
  threads : Nat → Local
  log : List Done

/-- A freshly constructed stack and idle threads. -/
def System.init : System := ⟨NodePtr.null, 0, fun _ => Local.idle, []⟩

/-- Thread `t` moves to `l`. -/
def setThread (threads : Nat → Local) (t : Nat) (l : Local) : Nat → Local :=
  fun u => if u = t then l else threads u

/-- The end of `pop`, with `node` as the loop left it:
`if (node == nullptr) return false; value = node->value; return true;`. -/
def System.popReturn (sys : System) (t : Nat) : NodePtr → System
  | NodePtr.null =>
    { sys with threads := setThread sys.threads t Local.idle,
               log := sys.log ++ [Done.pop_false t] }
  | NodePtr.node addr next value =>
    { sys with threads := setThread sys.threads t Local.idle,
               log := sys.log ++ [Done.pop_true t (NodePtr.node addr next value) value] }

/-- The test `node != nullptr` of the loop of `pop` after `node` was loaded or
refreshed: null leaves the loop, otherwise the thread is at its next
`compare_exchange_weak`. -/
def System.popTest (sys : System) (t : Nat) : NodePtr → System
  | NodePtr.null => sys.popReturn t NodePtr.null
  | NodePtr.node addr next value =>
    { sys with threads := setThread sys.threads t
                 (Local.in_pop (NodePtr.node addr next value)) }

/-- One atomic step.  An event that the thread cannot take (a call while in a
call, a compare-and-swap while idle) changes nothing. -/
def System.step (sys : System) : Event → System
  | Event.call_push t value =>
    match sys.threads t with
    | Local.idle =>
      { sys with threads := setThread sys.threads t (Local.in_push sys.m_head value) }
    | _ => sys
  | Event.call_pop t =>
    match sys.threads t with
    | Local.idle => sys.popTest t sys.m_head
    | _ => sys
  | Event.cas t spurious =>
    match sys.threads t with
    | Local.idle => sys
    | Local.in_push old value =>
      match compare_exchange_weak sys.m_head old (NodePtr.node sys.fresh old value)
          spurious with
      | (true, head1, _) =>
        ⟨head1, sys.fresh + 1, setThread sys.threads t Local.idle,
          sys.log ++ [Done.push t (NodePtr.node sys.fresh old value)]⟩
      | (false, head1, old1) =>
        ⟨head1, sys.fresh + 1, setThread sys.threads t (Local.in_push old1 value), sys.log⟩
    | Local.in_pop NodePtr.null => sys.popReturn t NodePtr.null
    | Local.in_pop (NodePtr.node addr next value) =>
      match compare_exchange_weak sys.m_head (NodePtr.node addr next value) next
          spurious with
      | (true, head1, node1) =>
        System.popReturn ⟨head1, sys.fresh, sys.threads, sys.log⟩ t node1
      | (false, head1, node1) =>
        System.popTest ⟨head1, sys.fresh, sys.threads, sys.log⟩ t node1

/-- An interleaving: the steps of all threads in the order they happen. -/
def System.run (sys : System) : List Event → System
  | [] => sys
  | e :: es => System.run (sys.step e) es

/-- The nodes installed by the completed pushes, oldest first. -/
def pushedNodes : List Done → List NodePtr
  | [] => []
  | Done.push _ tmp :: ds => tmp :: pushedNodes ds
  | _ :: ds => pushedNodes ds

/-- The values whose push completed, oldest first. -/
def pushedValues : List Done → List Int
  | [] => []
  | Done.push _ tmp :: ds => tmp.valueOf :: pushedValues ds
  | _ :: ds => pushedValues ds

/-- The nodes unlinked by the pops that returned true, oldest first. -/
def poppedNodes : List Done → List NodePtr
  | [] => []
  | Done.pop_true _ node _ :: ds => node :: poppedNodes ds
  | _ :: ds => poppedNodes ds

/-- The values written by the pops that returned true, oldest first. -/
def poppedValues : List Done → List Int
  | [] => []
  | Done.pop_true _ _ value :: ds => value :: poppedValues ds
  | _ :: ds => poppedValues ds

/-- The states reached by the interleavings from a freshly constructed stack. -/
def System.Reachable (sys : System) : Prop := ∃ es, System.init.run es = sys

/-- The pointer a thread holds in its local variable (`old` or `node`). -/
def Local.ptr : Local → NodePtr
  | Local.idle => NodePtr.null
  | Local.in_push old _ => old
  | Local.in_pop node => node

/-- A pointer is known among the installed nodes `nodes`: null or one of them. -/
def Known (nodes : List NodePtr) (p : NodePtr) : Prop :=
  p = NodePtr.null ∨ p ∈ nodes

/-- What holds of every state an interleaving reaches: installed nodes have
distinct addresses, all below `fresh`; every pointer held anywhere (the `next` of
an installed node, `m_head`, a thread's local variable) is null or an installed
node; the nodes unlinked by pops together with the chain under `m_head` are
exactly the installed nodes; and a pop that returned true wrote the value of the
node it unlinked. -/
structure System.Inv (sys : System) : Prop where
  addr_nodup : ((pushedNodes sys.log).map NodePtr.addrOf).Nodup
  addr_lt : ∀ n ∈ pushedNodes sys.log, n.addrOf < sys.fresh
  next_known : ∀ n ∈ pushedNodes sys.log, Known (pushedNodes sys.log) n.nextOf
  head_known : Known (pushedNodes sys.log) sys.m_head
  local_known : ∀ t, Known (pushedNodes sys.log) (sys.threads t).ptr
  perm : (poppedNodes sys.log ++ sys.m_head.chain).Perm (pushedNodes sys.log)
  pop_value : ∀ t node value, Done.pop_true t node value ∈ sys.log → value = node.valueOf

end lf_stack


/-! ## Properties of `ts_queue` -/

namespace ts_queue

variable {T : Type}

/-- A call that is not `wait_and_pop` always returns. -/
theorem apply_isSome_of_nonblocking (q : ts_queue T) (op : Op T)
    (h : op.nonblocking = true) : (q.apply op).isSome = true := by
  cases op <;> simp [apply, Op.nonblocking] at h ⊢

/-- A sequence of calls without `wait_and_pop` always runs to its end. -/
theorem run_isSome_of_nonblocking (ops : List (Op T)) (q : ts_queue T)
    (h : ∀ op ∈ ops, op.nonblocking = true) : (q.run ops).isSome = true := by
  induction ops generalizing q with
  | nil => simp [run]
  | cons op ops ih =>
    have h1 := apply_isSome_of_nonblocking q op (h op (List.mem_cons_self _ _))
    cases ha : q.apply op with
    | none => simp [ha] at h1
    | some p =>
      obtain ⟨q1, r⟩ := p
      have h2 := ih q1 (fun o ho => h o (List.mem_cons_of_mem _ ho))
      cases hr : q1.run ops with
      | none => simp [hr] at h2
      | some p2 => simp [run, ha, hr]

/-- One call keeps the balance: what was in the queue plus what the call pushed
is what the call popped plus what is in the queue afterwards. -/
theorem apply_balance (q q1 : ts_queue T) (op : Op T) (r : Res T)
    (h : q.apply op = some (q1, r)) :
    q.m_data ++ pushed [op] = popped [r] ++ q1.m_data := by
  cases op with
  | push val =>
    simp only [apply, Option.some.injEq, Prod.mk.injEq] at h
    obtain ⟨rfl, rfl⟩ := h
    simp [pushed, popped, push]
  | try_pop obj =>
    cases hq : q.m_data with
    | nil =>
      simp only [apply, try_pop, hq, Option.some.injEq, Prod.mk.injEq] at h
      obtain ⟨rfl, rfl⟩ := h
      simp [pushed, popped, hq]
    | cons x rest =>
      simp only [apply, try_pop, hq, Option.some.injEq, Prod.mk.injEq] at h
      obtain ⟨rfl, rfl⟩ := h
      simp [pushed, popped]
  | wait_and_pop =>
    cases hq : q.m_data with
    | nil => simp [apply, wait_and_pop, wait_and_pop_check, hq] at h
    | cons x rest =>
      simp only [apply, wait_and_pop, wait_and_pop_check, hq, Option.some.injEq,
        Prod.mk.injEq] at h
      obtain ⟨rfl, rfl⟩ := h
      simp [pushed, popped]
  | front obj =>
    cases hq : q.m_data with
    | nil =>
      simp only [apply, front, hq, Option.some.injEq, Prod.mk.injEq] at h
      obtain ⟨rfl, rfl⟩ := h
      simp [pushed, popped, hq]
    | cons x rest =>
      simp only [apply, front, hq, Option.some.injEq, Prod.mk.injEq] at h
      obtain ⟨rfl, rfl⟩ := h
      simp [pushed, popped, hq]
  | empty =>
    simp only [apply, Option.some.injEq, Prod.mk.injEq] at h
    obtain ⟨rfl, rfl⟩ := h
    simp [pushed, popped]
  | size =>
    simp only [apply, Option.some.injEq, Prod.mk.injEq] at h
    obtain ⟨rfl, rfl⟩ := h
    simp [pushed, popped]

theorem pushed_cons (op : Op T) (ops : List (Op T)) :
    pushed (op :: ops) = pushed [op] ++ pushed ops := by
  cases op <;> simp [pushed]

theorem popped_cons (r : Res T) (rs : List (Res T)) :
    popped (r :: rs) = popped [r] ++ popped rs := by
  cases r with
  | try_pop ret obj => cases ret <;> simp [popped]
  | _ => simp [popped]

theorem pushed_append (ops1 ops2 : List (Op T)) :
    pushed (ops1 ++ ops2) = pushed ops1 ++ pushed ops2 := by
  induction ops1 with
  | nil => simp [pushed]
  | cons op ops ih =>
    rw [List.cons_append, pushed_cons, ih, pushed_cons op ops, List.append_assoc]

theorem popped_append (rs1 rs2 : List (Res T)) :
    popped (rs1 ++ rs2) = popped rs1 ++ popped rs2 := by
  induction rs1 with
  | nil => simp [popped]
  | cons r rs ih =>
    rw [List.cons_append, popped_cons, ih, popped_cons r rs, List.append_assoc]

/-- A run keeps the balance: initial content followed by the pushed values is
the popped values followed by the final content. -/
theorem run_balance (ops : List (Op T)) (q q2 : ts_queue T) (rs : List (Res T))
    (h : q.run ops = some (q2, rs)) :
    q.m_data ++ pushed ops = popped rs ++ q2.m_data := by
  induction ops generalizing q rs with
  | nil =>
    simp only [run, Option.some.injEq, Prod.mk.injEq] at h
    obtain ⟨rfl, rfl⟩ := h
    simp [pushed, popped]
  | cons op ops ih =>
    simp only [run] at h
    cases ha : q.apply op with
    | none => simp [ha] at h
    | some p =>
      obtain ⟨q1, r⟩ := p
      simp only [ha] at h
      cases hr : q1.run ops with
      | none => simp [hr] at h
      | some p2 =>
        obtain ⟨q3, rs1⟩ := p2
        simp only [hr, Option.some.injEq, Prod.mk.injEq] at h
        obtain ⟨rfl, rfl⟩ := h
        have h1 := apply_balance q q1 op r ha
        have h2 := ih q1 rs1 hr
        rw [pushed_cons, popped_cons, ← List.append_assoc, h1, List.append_assoc, h2,
          List.append_assoc]

/-- A run is the run of its first part followed by the run of the rest. -/
theorem run_calls_append (ops1 ops2 : List (Op T)) (q q1 : ts_queue T) (rs1 : List (Res T))
    (h : q.run ops1 = some (q1, rs1)) :
    q.run (ops1 ++ ops2) = (q1.run ops2).map (fun p => (p.1, rs1 ++ p.2)) := by
  induction ops1 generalizing q rs1 with
  | nil =>
    simp only [run, Option.some.injEq, Prod.mk.injEq] at h
    obtain ⟨rfl, rfl⟩ := h
    cases hr : q.run ops2 <;> simp [hr]
  | cons op ops ih =>
    simp only [run] at h
    cases ha : q.apply op with
    | none => simp [ha] at h
    | some p =>
      obtain ⟨qa, r⟩ := p
      simp only [ha] at h
      cases hr : qa.run ops with
      | none => simp [hr] at h
      | some p2 =>
        obtain ⟨q3, rs3⟩ := p2
        simp only [hr, Option.some.injEq, Prod.mk.injEq] at h
        obtain ⟨rfl, rfl⟩ := h
        have h2 := ih qa rs3 hr
        rw [List.cons_append]
        simp only [run, ha]
        rw [h2]
        cases hq : q3.run ops2 <;> simp

/-- Pushing a list of values one at a time appends them, in order. -/
theorem run_push_calls (vs : List T) (q : ts_queue T) :
    q.run (vs.map Op.push) = some (⟨q.m_data ++ vs⟩, List.replicate vs.length Res.push) := by
  induction vs generalizing q with
  | nil => simp [run]
  | cons v vs ih =>
    simp only [List.map_cons, run, apply, ih, push, List.append_assoc, List.singleton_append,
      List.length_cons, List.replicate_succ]

/-- Popping `vs.length` times with `try_pop` a queue that starts with `vs` gives
`vs` in order and leaves the rest. -/
theorem run_try_pops (vs rest : List T) (obj : T) :
    (⟨vs ++ rest⟩ : ts_queue T).run (List.replicate vs.length (Op.try_pop obj)) =
      some (⟨rest⟩, vs.map (Res.try_pop true)) := by
  induction vs with
  | nil => simp [run]
  | cons v vs ih =>
    simp only [List.length_cons, List.replicate_succ, run, apply, try_pop, List.cons_append, ih,
      List.map_cons]

/-- Popping `vs.length` times with `wait_and_pop` a queue that starts with `vs`
gives `vs` in order and leaves the rest. -/
theorem run_wait_pops (vs rest : List T) :
    (⟨vs ++ rest⟩ : ts_queue T).run (List.replicate vs.length Op.wait_and_pop) =
      some (⟨rest⟩, vs.map Res.wait_and_pop) := by
  induction vs with
  | nil => simp [run]
  | cons v vs ih =>
    simp only [List.length_cons, List.replicate_succ, run, apply, wait_and_pop,
      wait_and_pop_check, List.cons_append, ih, List.map_cons]

theorem popped_map_try_pop (vs : List T) : popped (vs.map (Res.try_pop true)) = vs := by
  induction vs with
  | nil => simp [popped]
  | cons v vs ih => simp [popped, ih]

theorem popped_replicate_push (n : Nat) : popped (List.replicate n (Res.push : Res T)) = [] := by
  induction n with
  | zero => simp [popped]
  | succ n ih => simp [List.replicate_succ, popped, ih]

/-- The source constructor and the specification's wording give the same queue. -/
theorem ctor_sz_eq_presized_spec [Inhabited T] (n : Nat) :
    (ctor_sz n : ts_queue T) = presized_spec n := by
  induction n with
  | zero => simp [ctor_sz, presized_spec, ctor]
  | succ n ih =>
    rw [presized_spec, ← ih]
    simp only [ctor_sz, push, ts_queue.mk.injEq]
    rw [← List.replicate_succ']

/-- C1 (queue FIFO order): for every sequence of member calls applied one at a
time to a queue created empty (the sequence runs, i.e. no `wait_and_pop` meets
an empty queue), the values returned by the successful pops are a prefix of the
pushed values in push order, the rest of the pushed values being the content of
the queue; in particular pushing `vs` and popping `vs.length` times, with
`try_pop` or with `wait_and_pop`, returns `vs` in order. -/
theorem fifo_order (ops : List (Op T)) (q : ts_queue T) (rs : List (Res T))
    (h : (ctor : ts_queue T).run ops = some (q, rs)) :
    popped rs <+: pushed ops ∧ popped rs ++ q.m_data = pushed ops ∧
    (∀ (vs : List T) (obj : T),
      (ctor : ts_queue T).run (vs.map Op.push ++ List.replicate vs.length (Op.try_pop obj)) =
        some (ctor, List.replicate vs.length Res.push ++ vs.map (Res.try_pop true))) ∧
    (∀ vs : List T,
      (ctor : ts_queue T).run (vs.map Op.push ++ List.replicate vs.length Op.wait_and_pop) =
        some (ctor, List.replicate vs.length Res.push ++ vs.map Res.wait_and_pop)) := by
  have hb := run_balance ops ctor q rs h
  simp only [ctor, List.nil_append] at hb
  refine ⟨⟨q.m_data, hb.symm⟩, hb.symm, ?_, ?_⟩
  · intro vs obj
    rw [run_calls_append _ _ _ _ _ (run_push_calls vs ctor)]
    have := run_try_pops vs [] obj
    simp only [List.append_nil] at this
    simp [ctor, this]
  · intro vs
    rw [run_calls_append _ _ _ _ _ (run_push_calls vs ctor)]
    have := run_wait_pops vs []
    simp only [List.append_nil] at this
    simp [ctor, this]

/-- Instance of C1: two pushes, a pop, a push, two pops and a failing `try_pop`. -/
theorem fifo_order_witness :
    (ctor : ts_queue Int).run
        [Op.push 4, Op.push 7, Op.try_pop 0, Op.push 9, Op.wait_and_pop, Op.try_pop 0,
          Op.try_pop 5] =
      some (ctor, [Res.push, Res.push, Res.try_pop true 4, Res.push, Res.wait_and_pop 7,
          Res.try_pop true 9, Res.try_pop false 5]) ∧
    popped [Res.push, Res.push, Res.try_pop true 4, Res.push, Res.wait_and_pop 7,
          Res.try_pop true 9, Res.try_pop false (5 : Int)] <+:
      pushed [Op.push 4, Op.push 7, Op.try_pop 0, Op.push 9, Op.wait_and_pop, Op.try_pop 0,
          Op.try_pop (5 : Int)] :=
  ⟨by decide, (fifo_order
      [Op.push 4, Op.push 7, Op.try_pop 0, Op.push 9, Op.wait_and_pop, Op.try_pop 0,
          Op.try_pop 5] ctor
      [Res.push, Res.push, Res.try_pop true 4, Res.push, Res.wait_and_pop 7,
          Res.try_pop true 9, Res.try_pop false 5] (by decide)).1⟩

/-- C3 (queue no-loss accounting): for every sequence of `push`, `try_pop`,
`wait_and_pop` (on a non-empty queue), `front`, `empty` and `size` calls applied
one at a time to a queue created empty, `size()` afterwards returns the number
of pushes minus the number of successful pops, hence 0 when the two are equal. -/
theorem no_loss_accounting (ops : List (Op T)) (q : ts_queue T) (rs : List (Res T))
    (h : (ctor : ts_queue T).run ops = some (q, rs)) :
    (ctor : ts_queue T).run (ops ++ [Op.size]) =
      some (q, rs ++ [Res.size ((pushed ops).length - (popped rs).length)]) ∧
    q.size = (pushed ops).length - (popped rs).length ∧
    q.size + (popped rs).length = (pushed ops).length ∧
    ((popped rs).length = (pushed ops).length → q.size = 0) := by
  have hb := run_balance ops ctor q rs h
  simp only [ctor, List.nil_append] at hb
  have hl : (pushed ops).length = (popped rs).length + q.size := by
    rw [hb, List.length_append, size]
  refine ⟨?_, by omega, by omega, fun _ => by omega⟩
  rw [run_calls_append _ _ _ _ _ h]
  have : q.size = (pushed ops).length - (popped rs).length := by omega
  simp [run, apply, this]

/-- Instance of C3: three pushes, two successful pops and the read-only calls. -/
theorem no_loss_accounting_witness :
    (ctor : ts_queue Int).run
        [Op.push 4, Op.front 0, Op.push 7, Op.try_pop 0, Op.empty, Op.push 9, Op.size,
          Op.wait_and_pop] =
      some (⟨[9]⟩, [Res.push, Res.front true 4, Res.push, Res.try_pop true 4, Res.empty false,
          Res.push, Res.size 2, Res.wait_and_pop 7]) ∧
    (⟨[9]⟩ : ts_queue Int).size = 3 - 2 :=
  ⟨by decide, (no_loss_accounting
      [Op.push 4, Op.front 0, Op.push 7, Op.try_pop 0, Op.empty, Op.push 9, Op.size,
          Op.wait_and_pop] ⟨[9]⟩
      [Res.push, Res.front true 4, Res.push, Res.try_pop true 4, Res.empty false,
          Res.push, Res.size 2, Res.wait_and_pop 7] (by decide)).2.1⟩

/-- C6 (`try_pop` contract): on a queue whose sequence is `h :: r`, `try_pop`
returns true, writes `h` to its output and leaves `r`; on an empty sequence it
returns false and leaves the queue and the output as they were; it returns true
if and only if the sequence was non-empty. -/
theorem try_pop_contract (q : ts_queue T) (obj : T) :
    (∀ (h : T) (r : List T), q.m_data = h :: r → q.try_pop obj = (⟨r⟩, true, h)) ∧
    (q.m_data = [] → q.try_pop obj = (q, false, obj)) ∧
    ((q.try_pop obj).2.1 = true ↔ q.m_data ≠ []) := by
  refine ⟨?_, ?_, ?_⟩
  · intro h r hq
    simp [try_pop, hq]
  · intro hq
    simp [try_pop, hq]
  · cases hq : q.m_data <;> simp [try_pop, hq]

/-- Instance of C6 on the queue holding 4, 7, 9 and on the empty queue. -/
theorem try_pop_contract_witness :
    (⟨[4, 7, 9]⟩ : ts_queue Int).try_pop 0 = (⟨[7, 9]⟩, true, 4) ∧
    (⟨[]⟩ : ts_queue Int).try_pop 5 = (⟨[]⟩, false, 5) :=
  ⟨(try_pop_contract ⟨[4, 7, 9]⟩ 0).1 4 [7, 9] rfl, (try_pop_contract ⟨[]⟩ 5).2.1 rfl⟩

/-- C7 (pre-sized construction): the queue constructed with size argument `n` is
the empty queue onto which `n` default values were pushed; its `size()` is `n`,
`empty()` holds iff `n = 0`; in every run on it the successful pops return a
prefix of the `n` default values followed by the values pushed afterwards; and
after pushing `vs`, `n + vs.length` pops return `n` default values, then `vs`. -/
theorem presized_construction [Inhabited T] (n : Nat) :
    (ctor_sz n : ts_queue T) = presized_spec n ∧
    (ctor_sz n : ts_queue T).size = n ∧
    ((ctor_sz n : ts_queue T).empty = true ↔ n = 0) ∧
    (∀ (ops : List (Op T)) (q : ts_queue T) (rs : List (Res T)),
      (ctor_sz n : ts_queue T).run ops = some (q, rs) →
        popped rs ++ q.m_data = List.replicate n default ++ pushed ops) ∧
    (∀ (vs : List T) (obj : T),
      (ctor_sz n : ts_queue T).run
          (vs.map Op.push ++ List.replicate (n + vs.length) (Op.try_pop obj)) =
        some (ctor, List.replicate vs.length Res.push ++
          (List.replicate n (Res.try_pop true default) ++ vs.map (Res.try_pop true)))) := by
  refine ⟨ctor_sz_eq_presized_spec n, by simp [ctor_sz, size], ?_, ?_, ?_⟩
  · cases n <;> simp [ctor_sz, empty, List.replicate_succ]
  · intro ops q rs h
    have hb := run_balance ops _ q rs h
    simpa [ctor_sz] using hb.symm
  · intro vs obj
    rw [run_calls_append _ _ _ _ _ (run_push_calls vs (ctor_sz n))]
    have h := run_try_pops (List.replicate n (default : T) ++ vs) [] obj
    simp only [List.append_nil, List.length_append, List.length_replicate, List.map_append,
      List.map_replicate] at h
    simp [ctor_sz, ctor, h]

/-- Instance of C7 with `int` elements (`int()` is 0): size 2, then 5 pushed. -/
theorem presized_construction_witness :
    (ctor_sz 2 : ts_queue Int).run [Op.push 5, Op.try_pop 9, Op.try_pop 9] =
      some (⟨[5]⟩, [Res.push, Res.try_pop true 0, Res.try_pop true 0]) ∧
    popped [Res.push, Res.try_pop true 0, Res.try_pop true (0 : Int)] ++
        (⟨[5]⟩ : ts_queue Int).m_data =
      List.replicate 2 default ++ pushed [Op.push 5, Op.try_pop 9, Op.try_pop (9 : Int)] :=
  ⟨by decide, (presized_construction 2).2.2.2.1 [Op.push 5, Op.try_pop 9, Op.try_pop 9]
      ⟨[5]⟩ [Res.push, Res.try_pop true 0, Res.try_pop true 0] (by decide)⟩

theorem Blocking.run_events_append (b : Blocking T) (es1 es2 : List (Event T)) :
    Blocking.run b (es1 ++ es2) = Blocking.run (Blocking.run b es1) es2 := by
  induction es1 generalizing b with
  | nil => simp [Blocking.run]
  | cons e es ih => simp [Blocking.run, ih]

/-- Wakeups without a push leave a thread suspended on an empty queue as it is. -/
theorem Blocking.run_wakeups (b : Blocking T) (k : Nat)
    (hw : b.waiter = Waiter.blocked) (hq : b.queue.m_data = []) :
    Blocking.run b (List.replicate k Event.wakeup) = b := by
  induction k with
  | zero => simp [Blocking.run]
  | succ k ih =>
    have hs : b.step Event.wakeup = b := by
      obtain ⟨⟨d⟩, w⟩ := b
      simp only at hw hq
      subst hw hq
      simp [Blocking.step, wait_and_pop_check]
    simp [List.replicate_succ, Blocking.run, hs, ih]

/-- C8 (blocking wakeup correctness): `wait_and_pop` evaluates the predicate
under the lock at entry and after every wakeup.  It returns, at entry or at a
step, only when the sequence is non-empty, and then with the front of the
sequence, which it removes; a wakeup on an empty sequence leaves the thread
suspended and the queue unchanged; and when the thread is suspended on an empty
queue, any number of wakeups followed by one `push(v)` and a wakeup makes it
return `v` and leaves the queue empty. -/
theorem blocking_wakeup (q : ts_queue T) (b : Blocking T) (k : Nat) (v : T) :
    (∀ tmp, (Blocking.enter q).waiter = Waiter.returned tmp →
      q.m_data = tmp :: (Blocking.enter q).queue.m_data) ∧
    (∀ e tmp, b.waiter = Waiter.blocked → (b.step e).waiter = Waiter.returned tmp →
      e = Event.wakeup ∧ b.queue.m_data = tmp :: (b.step e).queue.m_data) ∧
    (b.waiter = Waiter.blocked → b.queue.m_data = [] →
      b.step Event.wakeup = b ∧
      Blocking.run b (List.replicate k Event.wakeup) = b ∧
      Blocking.run b (List.replicate k Event.wakeup ++ [Event.push v]) =
        ⟨⟨[v]⟩, Waiter.blocked⟩ ∧
      Blocking.run b (List.replicate k Event.wakeup ++ [Event.push v, Event.wakeup]) =
        ⟨⟨[]⟩, Waiter.returned v⟩) := by
  refine ⟨?_, ?_, ?_⟩
  · intro tmp h
    cases hq : q.m_data with
    | nil => simp [Blocking.enter, wait_and_pop_check, hq] at h
    | cons x rest =>
      simp only [Blocking.enter, wait_and_pop_check, hq, Waiter.returned.injEq] at h ⊢
      rw [h]
  · intro e tmp hw h
    cases e with
    | push val => simp [Blocking.step, hw] at h
    | wakeup =>
      refine ⟨rfl, ?_⟩
      cases hq : b.queue.m_data with
      | nil => simp [Blocking.step, hw, wait_and_pop_check, hq] at h
      | cons x rest =>
        simp only [Blocking.step, hw, wait_and_pop_check, hq, Waiter.returned.injEq] at h ⊢
        rw [h]
  · intro hw hq
    have h1 := Blocking.run_wakeups b 1 hw hq
    have hk := Blocking.run_wakeups b k hw hq
    refine ⟨by simpa [Blocking.run] using h1, hk, ?_, ?_⟩
    · rw [Blocking.run_events_append, hk]
      simp [Blocking.run, Blocking.step, push, hq, hw]
    · rw [Blocking.run_events_append, hk]
      simp [Blocking.run, Blocking.step, push, hq, hw, wait_and_pop_check]

/-- Instance of C8: a thread suspended on an empty queue of `int`, three wakeups
without a push, then `push(7)` and a wakeup. -/
theorem blocking_wakeup_witness :
    Blocking.run (Blocking.enter (ctor : ts_queue Int))
        [Event.wakeup, Event.wakeup, Event.wakeup] = ⟨⟨[]⟩, Waiter.blocked⟩ ∧
    Blocking.run (Blocking.enter (ctor : ts_queue Int))
        (List.replicate 3 Event.wakeup ++ [Event.push 7, Event.wakeup]) =
      ⟨⟨[]⟩, Waiter.returned 7⟩ :=
  ⟨by decide,
    ((blocking_wakeup (ctor : ts_queue Int) (Blocking.enter (ctor : ts_queue Int)) 3 7).2.2
      rfl rfl).2.2.2⟩

end ts_queue

/-! ## Properties of `lf_stack` without contention -/

namespace NodePtr

theorem same_self (p : NodePtr) : p.same p = true := by
  cases p <;> simp [same]

theorem values_eq_map_chain (p : NodePtr) : p.values = p.chain.map valueOf := by
  induction p with
  | null => simp [values, chain]
  | node a nx v ih => simp [values, chain, valueOf, ih]

theorem values_eq_nil (p : NodePtr) : p.values = [] ↔ p = null := by
  cases p <;> simp [values]

end NodePtr

/-- A compare-and-swap whose expected value is the content of the atomic
succeeds unless it fails spuriously. -/
theorem compare_exchange_weak_self (head desired : NodePtr) (spurious : Bool) :
    compare_exchange_weak head head desired spurious =
      if spurious then (false, head, head) else (true, desired, head) := by
  cases spurious <;> simp [compare_exchange_weak, NodePtr.same_self]

namespace lf_stack

/-- Without contention the loop of `push` ends as soon as a compare-and-swap
does not fail spuriously, and installs a node holding `value` above `head`. -/
theorem pushLoop_some (head : NodePtr) (value : Int) (cas : List Bool) (fresh : Nat)
    (h : false ∈ cas) :
    ∃ a, fresh ≤ a ∧
      pushLoop head fresh head value cas = some ⟨NodePtr.node a head value, a + 1⟩ := by
  induction cas generalizing fresh with
  | nil => simp at h
  | cons b bs ih =>
    cases b with
    | false =>
      exact ⟨fresh, le_refl _, by simp [pushLoop, compare_exchange_weak_self]⟩
    | true =>
      have hb : false ∈ bs := by simpa using h
      obtain ⟨a, ha, he⟩ := ih (fresh + 1) hb
      exact ⟨a, by omega, by simp [pushLoop, compare_exchange_weak_self, he]⟩

/-- Whenever the loop of `push` ends, it has installed a node holding `value`
above `head`. -/
theorem pushLoop_eq_some (head : NodePtr) (value : Int) (cas : List Bool) (fresh : Nat)
    (s1 : lf_stack) (h : pushLoop head fresh head value cas = some s1) :
    ∃ a, fresh ≤ a ∧ s1 = ⟨NodePtr.node a head value, a + 1⟩ := by
  induction cas generalizing fresh with
  | nil => simp [pushLoop] at h
  | cons b bs ih =>
    cases b with
    | false =>
      simp only [pushLoop, compare_exchange_weak_self, Bool.false_eq_true, if_false,
        Option.some.injEq] at h
      exact ⟨fresh, le_refl _, h.symm⟩
    | true =>
      simp only [pushLoop, compare_exchange_weak_self, if_true] at h
      obtain ⟨a, ha, he⟩ := ih (fresh + 1) h
      exact ⟨a, by omega, he⟩

/-- On an empty stack the loop of `pop` is left at once, whatever the flags. -/
theorem popLoop_null (head : NodePtr) (cas : List Bool) :
    popLoop head NodePtr.null cas = some (head, NodePtr.null) := by
  cases cas <;> simp [popLoop]

/-- Without contention the loop of `pop` on a non-empty stack ends as soon as a
compare-and-swap does not fail spuriously, with the top node unlinked. -/
theorem popLoop_some (a : Nat) (nx : NodePtr) (v : Int) (cas : List Bool)
    (h : false ∈ cas) :
    popLoop (NodePtr.node a nx v) (NodePtr.node a nx v) cas =
      some (nx, NodePtr.node a nx v) := by
  induction cas with
  | nil => simp at h
  | cons b bs ih =>
    cases b with
    | false => simp [popLoop, compare_exchange_weak_self]
    | true =>
      have hb : false ∈ bs := by simpa using h
      simp [popLoop, compare_exchange_weak_self, ih hb]

/-- Whenever the loop of `pop` on a non-empty stack ends, the top node is
unlinked. -/
theorem popLoop_eq_some (a : Nat) (nx : NodePtr) (v : Int) (cas : List Bool)
    (r : NodePtr × NodePtr)
    (h : popLoop (NodePtr.node a nx v) (NodePtr.node a nx v) cas = some r) :
    r = (nx, NodePtr.node a nx v) := by
  induction cas with
  | nil => simp [popLoop] at h
  | cons b bs ih =>
    cases b with
    | false =>
      simp only [popLoop, compare_exchange_weak_self, Bool.false_eq_true, if_false,
        Option.some.injEq] at h
      exact h.symm
    | true =>
      simp only [popLoop, compare_exchange_weak_self, if_true] at h
      exact ih h

theorem sizeLoop_eq (p : NodePtr) (n : Nat) : sizeLoop p n = p.values.length + n := by
  induction p generalizing n with
  | null => simp [sizeLoop, NodePtr.values]
  | node a nx v ih => simp [sizeLoop, NodePtr.values, ih]; omega

theorem size_eq (s : lf_stack) : s.size = s.m_head.values.length := by
  simp [size, sizeLoop_eq]

/-- A `push` that returns has put `value` on top of the chain. -/
theorem push_eq_some (s s1 : lf_stack) (value : Int) (cas : List Bool)
    (h : s.push value cas = some s1) :
    s1.m_head.values = value :: s.m_head.values := by
  obtain ⟨a, _, rfl⟩ := pushLoop_eq_some _ _ _ _ _ h
  simp [NodePtr.values]

/-- A `push` returns if some compare-and-swap does not fail spuriously. -/
theorem push_isSome (s : lf_stack) (value : Int) (cas : List Bool) (h : false ∈ cas) :
    ∃ s1, s.push value cas = some s1 := by
  obtain ⟨a, _, he⟩ := pushLoop_some s.m_head value cas s.fresh h
  exact ⟨_, he⟩

/-- A `pop` on an empty stack returns false at once and changes nothing. -/
theorem pop_null (s : lf_stack) (value : Int) (cas : List Bool)
    (h : s.m_head = NodePtr.null) : s.pop value cas = some (s, false, value) := by
  obtain ⟨hd, f⟩ := s
  simp only at h
  subst h
  simp [pop, popLoop_null]

/-- A `pop` that returns on a non-empty stack returns true with the top value and
leaves the rest of the chain. -/
theorem pop_eq_some (s : lf_stack) (value : Int) (cas : List Bool)
    (r : lf_stack × Bool × Int) (v : Int) (vs : List Int)
    (hv : s.m_head.values = v :: vs) (h : s.pop value cas = some r) :
    r.2 = (true, v) ∧ r.1.m_head.values = vs := by
  obtain ⟨hd, f⟩ := s
  cases hd with
  | null => simp [NodePtr.values] at hv
  | node a nx w =>
    simp only [NodePtr.values, List.cons.injEq] at hv
    obtain ⟨rfl, rfl⟩ := hv
    simp only [pop] at h
    cases hl : popLoop (NodePtr.node a nx w) (NodePtr.node a nx w) cas with
    | none => simp [hl] at h
    | some r1 =>
      have := popLoop_eq_some a nx w cas r1 hl
      subst this
      simp only [hl, Option.some.injEq] at h
      subst h
      simp

/-- A `pop` on a non-empty stack returns if some compare-and-swap does not fail
spuriously. -/
theorem pop_isSome (s : lf_stack) (value : Int) (cas : List Bool) (h : false ∈ cas) :
    ∃ r, s.pop value cas = some r := by
  obtain ⟨hd, f⟩ := s
  cases hd with
  | null => exact ⟨_, pop_null _ value cas rfl⟩
  | node a nx w => simp [pop, popLoop_some a nx w cas h]

/-- A call returns if one of its compare-and-swaps does not fail spuriously. -/
theorem apply_isSome (s : lf_stack) (op : Op) (h : false ∈ op.cas) :
    ∃ p, s.apply op = some p := by
  cases op with
  | push value cas =>
    obtain ⟨s1, h1⟩ := push_isSome s value cas h
    exact ⟨(s1, Res.push), by simp [apply, h1]⟩
  | pop value cas =>
    obtain ⟨r, h1⟩ := pop_isSome s value cas h
    exact ⟨(r.1, Res.pop r.2.1 r.2.2), by simp [apply, h1]⟩

/-- Calls run one at a time all return if none fails spuriously for ever. -/
theorem run_isSome (ops : List Op) (s : lf_stack) (h : ∀ op ∈ ops, false ∈ op.cas) :
    ∃ p, s.run ops = some p := by
  induction ops generalizing s with
  | nil => exact ⟨_, rfl⟩
  | cons op ops ih =>
    obtain ⟨⟨s1, r⟩, h1⟩ := apply_isSome s op (h op (List.mem_cons_self _ _))
    obtain ⟨⟨s2, rs⟩, h2⟩ := ih s1 (fun o ho => h o (List.mem_cons_of_mem _ ho))
    exact ⟨(s2, r :: rs), by simp [run, h1, h2]⟩

/-- One call keeps the count: nodes before plus pushes is nodes after plus
successful pops. -/
theorem apply_count (s s1 : lf_stack) (op : Op) (r : Res) (h : s.apply op = some (s1, r)) :
    s1.size + pops [r] = s.size + pushes [op] := by
  cases op with
  | push value cas =>
    simp only [apply] at h
    cases hp : s.push value cas with
    | none => simp [hp] at h
    | some s2 =>
      simp only [hp, Option.some.injEq, Prod.mk.injEq] at h
      obtain ⟨rfl, rfl⟩ := h
      simp [size_eq, push_eq_some s s2 value cas hp, pops, pushes]
  | pop value cas =>
    simp only [apply] at h
    cases hp : s.pop value cas with
    | none => simp [hp] at h
    | some r2 =>
      obtain ⟨s2, ret, val⟩ := r2
      simp only [hp, Option.some.injEq, Prod.mk.injEq] at h
      obtain ⟨rfl, rfl⟩ := h
      cases hv : s.m_head.values with
      | nil =>
        have hn := (NodePtr.values_eq_nil _).1 hv
        rw [pop_null s value cas hn] at hp
        simp only [Option.some.injEq, Prod.mk.injEq] at hp
        obtain ⟨rfl, rfl, rfl⟩ := hp
        simp [pops, pushes]
      | cons v vs =>
        have h2 := pop_eq_some s value cas _ v vs hv hp
        simp only [Prod.mk.injEq] at h2
        obtain ⟨⟨rfl, rfl⟩, h3⟩ := h2
        simp [size_eq, h3, hv, pops, pushes]

theorem pushes_cons (op : Op) (ops : List Op) : pushes (op :: ops) = pushes [op] + pushes ops := by
  cases op
  · simp [pushes]; omega
  · simp [pushes]

theorem pops_cons (r : Res) (rs : List Res) : pops (r :: rs) = pops [r] + pops rs := by
  cases r with
  | push => simp [pops]
  | pop ret value =>
    cases ret
    · simp [pops]
    · simp [pops]; omega

/-- A run keeps the count. -/
theorem run_count (ops : List Op) (s s2 : lf_stack) (rs : List Res)
    (h : s.run ops = some (s2, rs)) : s2.size + pops rs = s.size + pushes ops := by
  induction ops generalizing s rs with
  | nil =>
    simp only [run, Option.some.injEq, Prod.mk.injEq] at h
    obtain ⟨rfl, rfl⟩ := h
    simp [pushes, pops]
  | cons op ops ih =>
    simp only [run] at h
    cases ha : s.apply op with
    | none => simp [ha] at h
    | some p =>
      obtain ⟨s1, r⟩ := p
      simp only [ha] at h
      cases hr : s1.run ops with
      | none => simp [hr] at h
      | some p2 =>
        obtain ⟨s3, rs1⟩ := p2
        simp only [hr, Option.some.injEq, Prod.mk.injEq] at h
        obtain ⟨rfl, rfl⟩ := h
        have h1 := apply_count s s1 op r ha
        have h2 := ih s1 rs1 hr
        rw [pushes_cons, pops_cons]
        omega

/-- A run is the run of its first part followed by the run of the rest. -/
theorem run_ops_append (ops1 ops2 : List Op) (s s1 : lf_stack) (rs1 : List Res)
    (h : s.run ops1 = some (s1, rs1)) :
    s.run (ops1 ++ ops2) = (s1.run ops2).map (fun p => (p.1, rs1 ++ p.2)) := by
  induction ops1 generalizing s rs1 with
  | nil =>
    simp only [run, Option.some.injEq, Prod.mk.injEq] at h
    obtain ⟨rfl, rfl⟩ := h
    cases hr : s.run ops2 <;> simp [hr]
  | cons op ops ih =>
    simp only [run] at h
    cases ha : s.apply op with
    | none => simp [ha] at h
    | some p =>
      obtain ⟨sa, r⟩ := p
      simp only [ha] at h
      cases hr : sa.run ops with
      | none => simp [hr] at h
      | some p2 =>
        obtain ⟨s3, rs3⟩ := p2
        simp only [hr, Option.some.injEq, Prod.mk.injEq] at h
        obtain ⟨rfl, rfl⟩ := h
        have h2 := ih sa rs3 hr
        rw [List.cons_append]
        simp only [run, ha]
        rw [h2]
        cases hq : s3.run ops2 <;> simp

/-- Pushing values one at a time stacks them: the last pushed is on top. -/
theorem run_push_ops (pushOps : List (Int × List Bool)) (s : lf_stack)
    (h : ∀ p ∈ pushOps, false ∈ p.2) :
    ∃ s1, s.run (pushOps.map (fun p => Op.push p.1 p.2)) =
        some (s1, List.replicate pushOps.length Res.push) ∧
      s1.m_head.values = (pushOps.map Prod.fst).reverse ++ s.m_head.values := by
  induction pushOps generalizing s with
  | nil => exact ⟨s, by simp [run]⟩
  | cons p ps ih =>
    obtain ⟨sa, ha⟩ := push_isSome s p.1 p.2 (h p (List.mem_cons_self _ _))
    obtain ⟨s1, h1, h2⟩ := ih sa (fun o ho => h o (List.mem_cons_of_mem _ ho))
    refine ⟨s1, ?_, ?_⟩
    · simp [run, apply, ha, h1, List.replicate_succ]
    · rw [h2, push_eq_some s sa p.1 p.2 ha]
      simp

/-- Popping as many times as the chain has leading values `vs` returns them from
the top down and leaves the rest. -/
theorem run_pops (popCas : List (List Bool)) (vs rest : List Int) (out : Int) (s : lf_stack)
    (hv : s.m_head.values = vs ++ rest) (hl : popCas.length = vs.length)
    (h : ∀ c ∈ popCas, false ∈ c) :
    ∃ s1, s.run (popCas.map (Op.pop out)) = some (s1, vs.map (Res.pop true)) ∧
      s1.m_head.values = rest := by
  induction popCas generalizing s vs with
  | nil =>
    have : vs = [] := by simpa using hl.symm
    subst this
    exact ⟨s, by simp [run], by simpa using hv⟩
  | cons c cs ih =>
    cases vs with
    | nil => simp at hl
    | cons v vs =>
      obtain ⟨ra, ha⟩ := pop_isSome s out c (h c (List.mem_cons_self _ _))
      have h2 := pop_eq_some s out c ra v (vs ++ rest) (by simpa using hv) ha
      obtain ⟨sa, ret, val⟩ := ra
      simp only [Prod.mk.injEq] at h2
      obtain ⟨⟨rfl, rfl⟩, h3⟩ := h2
      obtain ⟨s1, h4, h5⟩ := ih vs sa h3 (by simpa using hl)
        (fun o ho => h o (List.mem_cons_of_mem _ ho))
      exact ⟨s1, by simp [run, apply, ha, h4], h5⟩

/-- C2 (stack LIFO under no contention): for every list of values pushed one at a
time onto a freshly constructed stack with no concurrent operation (no call
failing spuriously for ever), the next calls to `pop`, as many as there were
pushes, each return true and yield the values in the reverse of push order, and
one more `pop` returns false, leaving its output untouched and the stack empty. -/
theorem lifo_no_contention (pushOps : List (Int × List Bool)) (popCas : List (List Bool))
    (out : Int) (last : List Bool)
    (hpush : ∀ p ∈ pushOps, false ∈ p.2) (hpop : ∀ c ∈ popCas, false ∈ c)
    (hlen : popCas.length = pushOps.length) :
    ∃ s, ctor.run (pushOps.map (fun p => Op.push p.1 p.2) ++
          (popCas.map (Op.pop out) ++ [Op.pop out last])) =
        some (s, List.replicate pushOps.length Res.push ++
          ((pushOps.map Prod.fst).reverse.map (Res.pop true) ++ [Res.pop false out])) ∧
      s.m_head = NodePtr.null := by
  obtain ⟨s1, h1, h2⟩ := run_push_ops pushOps ctor hpush
  obtain ⟨s2, h3, h4⟩ := run_pops popCas (pushOps.map Prod.fst).reverse [] out s1
    (by simpa [ctor, NodePtr.values] using h2) (by simpa using hlen) hpop
  have hn : s2.m_head = NodePtr.null := (NodePtr.values_eq_nil _).1 h4
  refine ⟨s2, ?_, hn⟩
  rw [run_ops_append _ _ _ _ _ h1, run_ops_append _ _ _ _ _ h3]
  simp [run, apply, pop_null s2 out last hn]

/-- Instance of C2: `push(1)`, `push(2)`, `push(3)`, then three pops returning 3,
2, 1 and a fourth returning false (two of the calls fail spuriously once). -/
theorem lifo_no_contention_witness :
    ∃ s, ctor.run [Op.push 1 [false], Op.push 2 [true, false], Op.push 3 [false],
          Op.pop 0 [false], Op.pop 0 [true, false], Op.pop 0 [false], Op.pop 0 []] =
        some (s, [Res.push, Res.push, Res.push, Res.pop true 3, Res.pop true 2,
          Res.pop true 1, Res.pop false 0]) ∧
      s.m_head = NodePtr.null := by
  simpa using lifo_no_contention [(1, [false]), (2, [true, false]), (3, [false])]
    [[false], [true, false], [false]] 0 [] (by decide) (by decide) (by decide)

/-- C4 (stack size accounting): for every sequence of `push` and `pop` calls
executed one at a time on a freshly constructed stack, `size()` (the traversal
from `m_head` to null) returns the number of pushes minus the number of pops
that returned true, hence 0 when the two are equal; and the calls all return
when none of them fails spuriously for ever. -/
theorem size_accounting (ops : List Op) :
    (∀ (s : lf_stack) (rs : List Res), ctor.run ops = some (s, rs) →
      s.size = pushes ops - pops rs ∧ s.size + pops rs = pushes ops ∧
      (pops rs = pushes ops → s.size = 0)) ∧
    ((∀ op ∈ ops, false ∈ op.cas) → ∃ p, ctor.run ops = some p) := by
  refine ⟨?_, fun h => run_isSome ops ctor h⟩
  intro s rs h
  have hc := run_count ops ctor s rs h
  have h0 : ctor.size = 0 := by simp [size, ctor, sizeLoop]
  rw [h0] at hc
  refine ⟨by omega, by omega, fun _ => by omega⟩

/-- Instance of C4: three pushes and two successful pops leave one node. -/
theorem size_accounting_witness :
    ctor.run [Op.push 1 [false], Op.pop 0 [false], Op.pop 5 [], Op.push 1 [true, false],
        Op.push 1 [false], Op.pop 0 [true, true, false]] =
      some (⟨NodePtr.node 2 NodePtr.null 1, 4⟩,
        [Res.push, Res.pop true 1, Res.pop false 5, Res.push, Res.push, Res.pop true 1]) ∧
    (⟨NodePtr.node 2 NodePtr.null 1, 4⟩ : lf_stack).size = 3 - 2 :=
  ⟨by decide, ((size_accounting
      [Op.push 1 [false], Op.pop 0 [false], Op.pop 5 [], Op.push 1 [true, false],
        Op.push 1 [false], Op.pop 0 [true, true, false]]).1
      ⟨NodePtr.node 2 NodePtr.null 1, 4⟩
      [Res.push, Res.pop true 1, Res.pop false 5, Res.push, Res.push, Res.pop true 1]
      (by decide)).1⟩

end lf_stack

/-- C5 (empty on empty): on a default-constructed queue `try_pop` returns false,
and on a freshly constructed stack `pop` returns false, the latter without
executing a single compare-and-swap (it returns even with no flag to consume);
in both cases the output is untouched and the structure is still empty, with
`size()` equal to 0. -/
theorem empty_on_empty {T : Type} (obj : T) (value : Int) (cas : List Bool) :
    (ts_queue.ctor : ts_queue T).try_pop obj = (ts_queue.ctor, false, obj) ∧
    (ts_queue.ctor : ts_queue T).size = 0 ∧
    ((ts_queue.ctor : ts_queue T).try_pop obj).1.size = 0 ∧
    lf_stack.ctor.pop value cas = some (lf_stack.ctor, false, value) ∧
    lf_stack.ctor.pop value [] = some (lf_stack.ctor, false, value) ∧
    lf_stack.ctor.size = 0 := by
  refine ⟨rfl, rfl, rfl, lf_stack.pop_null _ _ _ rfl, lf_stack.pop_null _ _ _ rfl, rfl⟩

/-! ## Properties of `lf_stack` under concurrent `push` and `pop` -/

namespace lf_stack

theorem pushedNodes_append (l1 l2 : List Done) :
    pushedNodes (l1 ++ l2) = pushedNodes l1 ++ pushedNodes l2 := by
  induction l1 with
  | nil => simp [pushedNodes]
  | cons d ds ih => cases d <;> simp [pushedNodes, ih]

theorem poppedNodes_append (l1 l2 : List Done) :
    poppedNodes (l1 ++ l2) = poppedNodes l1 ++ poppedNodes l2 := by
  induction l1 with
  | nil => simp [poppedNodes]
  | cons d ds ih => cases d <;> simp [poppedNodes, ih]

theorem pushedValues_eq (l : List Done) :
    pushedValues l = (pushedNodes l).map NodePtr.valueOf := by
  induction l with
  | nil => simp [pushedValues, pushedNodes]
  | cons d ds ih => cases d <;> simp [pushedValues, pushedNodes, ih]

theorem poppedValues_eq (l : List Done)
    (h : ∀ t node value, Done.pop_true t node value ∈ l → value = node.valueOf) :
    poppedValues l = (poppedNodes l).map NodePtr.valueOf := by
  induction l with
  | nil => simp [poppedValues, poppedNodes]
  | cons d ds ih =>
    have ih1 := ih (fun t node value hm => h t node value (List.mem_cons_of_mem _ hm))
    cases d with
    | push t tmp => simpa [poppedValues, poppedNodes] using ih1
    | pop_false t => simpa [poppedValues, poppedNodes] using ih1
    | pop_true t node value =>
      have hv := h t node value (List.mem_cons_self _ _)
      simp [poppedValues, poppedNodes, ih1, hv]

theorem mem_pushedNodes (l : List Done) (n : NodePtr) :
    n ∈ pushedNodes l ↔ ∃ t, Done.push t n ∈ l := by
  induction l with
  | nil => simp [pushedNodes]
  | cons d ds ih =>
    cases d with
    | push t tmp =>
      simp only [pushedNodes, List.mem_cons, ih, Done.push.injEq]
      constructor
      · rintro (rfl | ⟨u, hu⟩)
        · exact ⟨t, Or.inl ⟨rfl, rfl⟩⟩
        · exact ⟨u, Or.inr hu⟩
      · rintro ⟨u, ⟨_, rfl⟩ | hu⟩
        · exact Or.inl rfl
        · exact Or.inr ⟨u, hu⟩
    | pop_true t node value => simp [pushedNodes, ih]
    | pop_false t => simp [pushedNodes, ih]

theorem mem_poppedNodes (l : List Done) (t : Nat) (node : NodePtr) (value : Int)
    (h : Done.pop_true t node value ∈ l) : node ∈ poppedNodes l := by
  induction l with
  | nil => simp at h
  | cons d ds ih =>
    cases d with
    | push u tmp =>
      simp only [List.mem_cons, reduceCtorEq, false_or] at h
      simpa [poppedNodes] using ih h
    | pop_false u =>
      simp only [List.mem_cons, reduceCtorEq, false_or] at h
      simpa [poppedNodes] using ih h
    | pop_true u n v =>
      simp only [List.mem_cons, Done.pop_true.injEq] at h
      rcases h with ⟨_, rfl, _⟩ | h
      · simp [poppedNodes]
      · simp [poppedNodes, ih h]

theorem Known.mono (nodes more : List NodePtr) (p : NodePtr) (h : Known nodes p) :
    Known (nodes ++ more) p := by
  rcases h with h | h
  · exact Or.inl h
  · exact Or.inr (List.mem_append_left _ h)

/-- Among known pointers, comparing equal as pointers is being the same node. -/
theorem eq_of_same (nodes : List NodePtr) (p q : NodePtr)
    (hnd : (nodes.map NodePtr.addrOf).Nodup)
    (hp : Known nodes p) (hq : Known nodes q) (h : p.same q = true) : p = q := by
  have hinj := List.inj_on_of_nodup_map hnd
  cases p with
  | null => cases q <;> simp_all [NodePtr.same]
  | node a nx v =>
    cases q with
    | null => simp [NodePtr.same] at h
    | node b ny w =>
      have hpm : NodePtr.node a nx v ∈ nodes := by
        rcases hp with hp | hp
        · cases hp
        · exact hp
      have hqm : NodePtr.node b ny w ∈ nodes := by
        rcases hq with hq | hq
        · cases hq
        · exact hq
      have hab : a = b := by simpa [NodePtr.same] using h
      exact hinj hpm hqm (by simpa [NodePtr.addrOf] using hab)

theorem setThread_known (nodes : List NodePtr) (threads : Nat → Local) (t : Nat) (l : Local)
    (h : ∀ u, Known nodes (threads u).ptr) (hl : Known nodes l.ptr) :
    ∀ u, Known nodes (setThread threads t l u).ptr := by
  intro u
  unfold setThread
  split
  · exact hl
  · exact h u

/-- The invariant carries over to a state with the same head, the same installed
and unlinked nodes, a counter not smaller, and known local pointers. -/
theorem System.Inv.frame (sys sys1 : System) (h : sys.Inv)
    (hhead : sys1.m_head = sys.m_head) (hfresh : sys.fresh ≤ sys1.fresh)
    (hpush : pushedNodes sys1.log = pushedNodes sys.log)
    (hpop : poppedNodes sys1.log = poppedNodes sys.log)
    (hloc : ∀ t, Known (pushedNodes sys.log) (sys1.threads t).ptr)
    (hval : ∀ t node value, Done.pop_true t node value ∈ sys1.log → value = node.valueOf) :
    sys1.Inv where
  addr_nodup := by rw [hpush]; exact h.addr_nodup
  addr_lt := by
    rw [hpush]
    intro n hn
    exact lt_of_lt_of_le (h.addr_lt n hn) hfresh
  next_known := by rw [hpush]; exact h.next_known
  head_known := by rw [hpush, hhead]; exact h.head_known
  local_known := by rw [hpush]; exact hloc
  perm := by rw [hpush, hpop, hhead]; exact h.perm
  pop_value := hval

/-- The invariant holds initially. -/
theorem System.Inv.init : System.init.Inv where
  addr_nodup := by simp [System.init, pushedNodes]
  addr_lt := by simp [System.init, pushedNodes]
  next_known := by simp [System.init, pushedNodes]
  head_known := Or.inl rfl
  local_known := fun _ => Or.inl rfl
  perm := by simp [System.init, pushedNodes, poppedNodes, NodePtr.chain]
  pop_value := by simp [System.init]

/-- The invariant survives a successful compare-and-swap of `push`. -/
theorem System.Inv.push_success (sys : System) (h : sys.Inv) (t : Nat) (old : NodePtr)
    (value : Int) (ht : sys.threads t = Local.in_push old value)
    (hs : sys.m_head.same old = true) :
    System.Inv ⟨NodePtr.node sys.fresh old value, sys.fresh + 1,
      setThread sys.threads t Local.idle,
      sys.log ++ [Done.push t (NodePtr.node sys.fresh old value)]⟩ := by
  have hold : Known (pushedNodes sys.log) old := by
    have := h.local_known t
    rwa [ht] at this
  have heq : sys.m_head = old :=
    eq_of_same _ _ _ h.addr_nodup h.head_known hold hs
  have hpn : pushedNodes (sys.log ++ [Done.push t (NodePtr.node sys.fresh old value)]) =
      pushedNodes sys.log ++ [NodePtr.node sys.fresh old value] := by
    simp [pushedNodes_append, pushedNodes]
  have hpp : poppedNodes (sys.log ++ [Done.push t (NodePtr.node sys.fresh old value)]) =
      poppedNodes sys.log := by
    simp [poppedNodes_append, poppedNodes]
  constructor
  · simp only [hpn, List.map_append, List.map_cons, List.map_nil, NodePtr.addrOf]
    rw [List.nodup_append]
    refine ⟨h.addr_nodup, by simp, ?_⟩
    intro a ha hb
    simp only [List.mem_singleton] at hb
    subst hb
    obtain ⟨n, hn, hna⟩ := List.mem_map.1 ha
    have := h.addr_lt n hn
    omega
  · simp only [hpn]
    intro n hn
    rcases List.mem_append.1 hn with hn | hn
    · have := h.addr_lt n hn
      omega
    · simp only [List.mem_singleton] at hn
      subst hn
      simp [NodePtr.addrOf]
  · simp only [hpn]
    intro n hn
    rcases List.mem_append.1 hn with hn | hn
    · exact Known.mono _ _ _ (h.next_known n hn)
    · simp only [List.mem_singleton] at hn
      subst hn
      exact Known.mono _ _ _ hold
  · simp only [hpn]
    exact Or.inr (by simp)
  · simp only [hpn]
    exact setThread_known _ _ _ _ (fun u => Known.mono _ _ _ (h.local_known u)) (Or.inl rfl)
  · simp only [hpn, hpp, NodePtr.chain]
    have hp := h.perm
    rw [heq] at hp
    exact (List.perm_middle.trans (List.Perm.cons _ hp)).trans
      (List.perm_append_singleton _ _).symm
  · intro u node v hm
    simp only [List.mem_append, List.mem_singleton, reduceCtorEq, or_false] at hm
    exact h.pop_value u node v hm

/-- The invariant survives a successful compare-and-swap of `pop`. -/
theorem System.Inv.pop_success (sys : System) (h : sys.Inv) (t : Nat) (a : Nat)
    (nx : NodePtr) (v : Int) (ht : sys.threads t = Local.in_pop (NodePtr.node a nx v))
    (hs : sys.m_head.same (NodePtr.node a nx v) = true) :
    System.Inv ⟨nx, sys.fresh, setThread sys.threads t Local.idle,
      sys.log ++ [Done.pop_true t (NodePtr.node a nx v) v]⟩ := by
  have hnode : Known (pushedNodes sys.log) (NodePtr.node a nx v) := by
    have := h.local_known t
    rwa [ht] at this
  have heq : sys.m_head = NodePtr.node a nx v :=
    eq_of_same _ _ _ h.addr_nodup h.head_known hnode hs
  have hmem : NodePtr.node a nx v ∈ pushedNodes sys.log := by
    rcases hnode with hn | hn
    · cases hn
    · exact hn
  have hpn : pushedNodes (sys.log ++ [Done.pop_true t (NodePtr.node a nx v) v]) =
      pushedNodes sys.log := by
    simp [pushedNodes_append, pushedNodes]
  have hpp : poppedNodes (sys.log ++ [Done.pop_true t (NodePtr.node a nx v) v]) =
      poppedNodes sys.log ++ [NodePtr.node a nx v] := by
    simp [poppedNodes_append, poppedNodes]
  constructor
  · simp only [hpn]; exact h.addr_nodup
  · simp only [hpn]; exact h.addr_lt
  · simp only [hpn]; exact h.next_known
  · simp only [hpn]
    exact h.next_known _ hmem
  · simp only [hpn]
    exact setThread_known _ _ _ _ h.local_known (Or.inl rfl)
  · simp only [hpn, hpp]
    have hp := h.perm
    rw [heq] at hp
    simpa [NodePtr.chain] using hp
  · intro u node w hm
    simp only [List.mem_append, List.mem_singleton, Done.pop_true.injEq] at hm
    rcases hm with hm | ⟨_, rfl, rfl⟩
    · exact h.pop_value u node w hm
    · rfl

/-- The invariant survives `popReturn` on null (a pop returning false). -/
theorem System.Inv.popReturn_null (sys : System) (h : sys.Inv) (t : Nat) :
    (sys.popReturn t NodePtr.null).Inv := by
  refine System.Inv.frame sys (sys.popReturn t NodePtr.null) h rfl (le_refl _) ?_ ?_ ?_ ?_
  · simp [System.popReturn, pushedNodes_append, pushedNodes]
  · simp [System.popReturn, poppedNodes_append, poppedNodes]
  · exact setThread_known _ _ _ _ h.local_known (Or.inl rfl)
  · intro u node w hm
    simp only [System.popReturn, List.mem_append, List.mem_singleton, reduceCtorEq,
      or_false] at hm
    exact h.pop_value u node w hm

/-- The invariant survives `popTest` on a known pointer. -/
theorem System.Inv.popTest (sys : System) (h : sys.Inv) (t : Nat) (node : NodePtr)
    (hk : Known (pushedNodes sys.log) node) : (sys.popTest t node).Inv := by
  cases node with
  | null => exact System.Inv.popReturn_null sys h t
  | node a nx v =>
    refine System.Inv.frame sys (sys.popTest t (NodePtr.node a nx v)) h rfl (le_refl _)
      rfl rfl ?_ ?_
    · exact setThread_known _ _ _ _ h.local_known hk
    · exact h.pop_value

/-- Every atomic step preserves the invariant. -/
theorem System.Inv.step (sys : System) (h : sys.Inv) (e : Event) : (sys.step e).Inv := by
  cases e with
  | call_push t value =>
    cases ht : sys.threads t with
    | idle =>
      simp only [System.step, ht]
      refine System.Inv.frame sys _ h ?_ ?_ ?_ ?_ ?_ ?_
      · rfl
      · exact le_refl _
      · rfl
      · rfl
      · exact setThread_known _ _ _ _ h.local_known h.head_known
      · exact h.pop_value
    | in_push old v => simpa [System.step, ht] using h
    | in_pop node => simpa [System.step, ht] using h
  | call_pop t =>
    cases ht : sys.threads t with
    | idle =>
      simp only [System.step, ht]
      exact System.Inv.popTest sys h t sys.m_head h.head_known
    | in_push old v => simpa [System.step, ht] using h
    | in_pop node => simpa [System.step, ht] using h
  | cas t spurious =>
    cases ht : sys.threads t with
    | idle => simpa [System.step, ht] using h
    | in_push old v =>
      by_cases hc : (sys.m_head.same old && !spurious) = true
      · simp only [System.step, ht, compare_exchange_weak, hc, if_true]
        have hs : sys.m_head.same old = true := by
          simp only [Bool.and_eq_true] at hc
          exact hc.1
        exact System.Inv.push_success sys h t old v ht hs
      · simp only [System.step, ht, compare_exchange_weak, hc, if_false]
        refine System.Inv.frame sys _ h ?_ ?_ ?_ ?_ ?_ ?_
        · rfl
        · exact Nat.le_succ _
        · rfl
        · rfl
        · exact setThread_known _ _ _ _ h.local_known h.head_known
        · exact h.pop_value
    | in_pop node =>
      cases node with
      | null =>
        simp only [System.step, ht]
        exact System.Inv.popReturn_null sys h t
      | node a nx v =>
        by_cases hc : (sys.m_head.same (NodePtr.node a nx v) && !spurious) = true
        · simp only [System.step, ht, compare_exchange_weak, hc, if_true]
          have hs : sys.m_head.same (NodePtr.node a nx v) = true := by
            simp only [Bool.and_eq_true] at hc
            exact hc.1
          exact System.Inv.pop_success sys h t a nx v ht hs
        · simp only [System.step, ht, compare_exchange_weak, hc, if_false]
          exact System.Inv.popTest sys h t sys.m_head h.head_known

/-- Every state reached by an interleaving from a state satisfying the invariant
satisfies it. -/
theorem System.Inv.run (es : List Event) (sys : System) (h : sys.Inv) :
    (sys.run es).Inv := by
  induction es generalizing sys with
  | nil => exact h
  | cons e es ih => exact ih _ (System.Inv.step sys h e)

theorem System.Reachable.inv (sys : System) (h : sys.Reachable) : sys.Inv := by
  obtain ⟨es, rfl⟩ := h
  exact System.Inv.run es _ System.Inv.init

theorem System.run_steps_append (sys : System) (es1 es2 : List Event) :
    sys.run (es1 ++ es2) = (sys.run es1).run es2 := by
  induction es1 generalizing sys with
  | nil => rfl
  | cons e es ih => simp [System.run, ih]

theorem System.popReturn_log (sys : System) (t : Nat) (node : NodePtr) :
    sys.log <+: (sys.popReturn t node).log := by
  cases node <;> simp [System.popReturn]

theorem System.popTest_log (sys : System) (t : Nat) (node : NodePtr) :
    sys.log <+: (sys.popTest t node).log := by
  cases node
  · exact System.popReturn_log sys t NodePtr.null
  · simp [System.popTest]

/-- A step only appends to the history of completed calls. -/
theorem System.step_log (sys : System) (e : Event) : sys.log <+: (sys.step e).log := by
  cases e with
  | call_push t value =>
    cases ht : sys.threads t <;> simp [System.step, ht]
  | call_pop t =>
    cases ht : sys.threads t with
    | idle =>
      simp only [System.step, ht]
      exact System.popTest_log sys t _
    | in_push old v => simp [System.step, ht]
    | in_pop node => simp [System.step, ht]
  | cas t spurious =>
    cases ht : sys.threads t with
    | idle => simp [System.step, ht]
    | in_push old v =>
      by_cases hc : (sys.m_head.same old && !spurious) = true
      · simp [System.step, ht, compare_exchange_weak, hc]
      · simp [System.step, ht, compare_exchange_weak, hc]
    | in_pop node =>
      cases node with
      | null =>
        simp only [System.step, ht]
        exact System.popReturn_log sys t _
      | node a nx v =>
        by_cases hc : (sys.m_head.same (NodePtr.node a nx v) && !spurious) = true
        · simp only [System.step, ht, compare_exchange_weak, hc, if_true]
          exact System.popReturn_log ⟨nx, sys.fresh, sys.threads, sys.log⟩ t _
        · simp only [System.step, ht, compare_exchange_weak, hc, if_false]
          exact System.popTest_log sys t _

/-- An interleaving only appends to the history of completed calls. -/
theorem System.run_log (es : List Event) (sys : System) : sys.log <+: (sys.run es).log := by
  induction es generalizing sys with
  | nil => exact List.prefix_refl _
  | cons e es ih => exact (System.step_log sys e).trans (ih _)

/-- C9 (concurrent push/pop): in every interleaving of the atomic steps (head
loads and compare-and-swaps, spurious failures included) of any number of
threads running `push` and `pop` on a freshly constructed stack, the multiset of
values returned by successful pops plus the multiset of values in the chain
equals the multiset of values whose push completed; the nodes unlinked by
successful pops are pairwise distinct, now and in every continuation (the
history only grows); and every pop that returned true returned the value of a
node that a completed push installed. -/
theorem linearizable (es : List Event) :
    ((poppedValues (System.init.run es).log : Multiset Int) +
        ((System.init.run es).m_head.values : Multiset Int) =
      (pushedValues (System.init.run es).log : Multiset Int)) ∧
    ((poppedNodes (System.init.run es).log).map NodePtr.addrOf).Nodup ∧
    (poppedNodes (System.init.run es).log ++ (System.init.run es).m_head.chain).Perm
      (pushedNodes (System.init.run es).log) ∧
    ((pushedNodes (System.init.run es).log).map NodePtr.addrOf).Nodup ∧
    (∀ t node value, Done.pop_true t node value ∈ (System.init.run es).log →
      value = node.valueOf ∧ ∃ u, Done.push u node ∈ (System.init.run es).log) ∧
    (∀ more, (System.init.run es).log <+: (System.init.run (es ++ more)).log) := by
  have h := System.Inv.run es _ System.Inv.init
  have hperm := h.perm
  have hnd : ((poppedNodes (System.init.run es).log ++
      (System.init.run es).m_head.chain).map NodePtr.addrOf).Nodup :=
    ((hperm.map NodePtr.addrOf).nodup_iff).2 h.addr_nodup
  refine ⟨?_, ?_, hperm, h.addr_nodup, ?_, ?_⟩
  · rw [Multiset.coe_add, Multiset.coe_eq_coe, poppedValues_eq _ h.pop_value, pushedValues_eq,
      NodePtr.values_eq_map_chain, ← List.map_append]
    exact hperm.map _
  · rw [List.map_append] at hnd
    exact (List.nodup_append.1 hnd).1
  · intro t node value hm
    refine ⟨h.pop_value t node value hm, ?_⟩
    have h1 : node ∈ poppedNodes (System.init.run es).log := mem_poppedNodes _ t node value hm
    have h2 : node ∈ pushedNodes (System.init.run es).log :=
      hperm.subset (List.mem_append_left _ h1)
    exact (mem_pushedNodes _ _).1 h2
  · intro more
    rw [System.run_steps_append]
    exact System.run_log more _

/-- Instance of C9: threads 0 and 1 push 5 and 6 concurrently (the compare-and-swap
of thread 0 first fails because thread 1 changed the head), thread 2 pops 5 after
a failure caused by the push of thread 0 and a spurious one, thread 1 pops 6 and
thread 0 finds the stack empty. -/
theorem linearizable_witness :
    (System.init.run [Event.call_push 0 5, Event.call_push 1 6, Event.cas 1 false,
        Event.cas 0 false, Event.call_pop 2, Event.cas 0 false, Event.cas 2 false,
        Event.cas 2 true, Event.cas 2 false, Event.call_pop 1, Event.cas 1 false,
        Event.call_pop 0]).log =
      [Done.push 1 (NodePtr.node 0 NodePtr.null 6),
        Done.push 0 (NodePtr.node 2 (NodePtr.node 0 NodePtr.null 6) 5),
        Done.pop_true 2 (NodePtr.node 2 (NodePtr.node 0 NodePtr.null 6) 5) 5,
        Done.pop_true 1 (NodePtr.node 0 NodePtr.null 6) 6, Done.pop_false 0] ∧
    ((5 : Int) = (NodePtr.node 2 (NodePtr.node 0 NodePtr.null 6) 5).valueOf ∧
      ∃ u, Done.push u (NodePtr.node 2 (NodePtr.node 0 NodePtr.null 6) 5) ∈
        (System.init.run [Event.call_push 0 5, Event.call_push 1 6, Event.cas 1 false,
          Event.cas 0 false, Event.call_pop 2, Event.cas 0 false, Event.cas 2 false,
          Event.cas 2 true, Event.cas 2 false, Event.call_pop 1, Event.cas 1 false,
          Event.call_pop 0]).log) :=
  ⟨by decide, (linearizable [Event.call_push 0 5, Event.call_push 1 6, Event.cas 1 false,
        Event.cas 0 false, Event.call_pop 2, Event.cas 0 false, Event.cas 2 false,
        Event.cas 2 true, Event.cas 2 false, Event.call_pop 1, Event.cas 1 false,
        Event.call_pop 0]).2.2.2.2.1 2 (NodePtr.node 2 (NodePtr.node 0 NodePtr.null 6) 5) 5
      (by decide)⟩

/-- Failed compare-and-swaps only refresh `old` and use up addresses. -/
theorem pushObserved_append (failed env : List (NodePtr × Bool)) (fresh : Nat)
    (old : NodePtr) (value : Int) (h : allFail old failed = true) :
    pushObserved fresh old value (failed ++ env) =
      pushObserved (fresh + failed.length) (lastSeen old failed) value env := by
  induction failed generalizing fresh old with
  | nil => simp [lastSeen]
  | cons p ps ih =>
    obtain ⟨head, spurious⟩ := p
    simp only [allFail, Bool.and_eq_true, Bool.not_eq_true'] at h
    obtain ⟨h1, h2⟩ := h
    rw [List.cons_append]
    simp only [pushObserved, compare_exchange_weak, h1, Bool.false_eq_true,
      if_false, lastSeen, List.length_cons]
    rw [ih (fresh + 1) head h2]
    congr 1
    omega

/-- A compare-and-swap that meets the value last seen succeeds and installs a
node whose `next` is that value. -/
theorem pushObserved_success (head : NodePtr) (rest : List (NodePtr × Bool)) (fresh : Nat)
    (old : NodePtr) (value : Int) (h : head.same old = true) :
    pushObserved fresh old value ((head, false) :: rest) =
      some (NodePtr.node fresh old value, head) := by
  simp [pushObserved, compare_exchange_weak, h]

/-- Whenever the loop of `push` ends, the compare-and-swaps before the last all
failed and the last met the value last seen. -/
theorem pushObserved_eq_some (env : List (NodePtr × Bool)) (fresh : Nat) (old : NodePtr)
    (value : Int) (inst replaced : NodePtr)
    (h : pushObserved fresh old value env = some (inst, replaced)) :
    ∃ failed rest, env = failed ++ (replaced, false) :: rest ∧ allFail old failed = true ∧
      inst = NodePtr.node (fresh + failed.length) (lastSeen old failed) value ∧
      replaced.same (lastSeen old failed) = true := by
  induction env generalizing fresh old with
  | nil => simp [pushObserved] at h
  | cons p ps ih =>
    obtain ⟨head, spurious⟩ := p
    by_cases hc : (head.same old && !spurious) = true
    · simp only [pushObserved, compare_exchange_weak, hc, if_true, Option.some.injEq,
        Prod.mk.injEq] at h
      obtain ⟨rfl, rfl⟩ := h
      simp only [Bool.and_eq_true, Bool.not_eq_true'] at hc
      obtain ⟨h1, rfl⟩ := hc
      exact ⟨[], ps, by simp, by simp [allFail], by simp [lastSeen],
        by simpa [lastSeen] using h1⟩
    · simp only [pushObserved, compare_exchange_weak, hc, if_false] at h
      obtain ⟨failed, rest, h1, h2, h3, h4⟩ := ih (fresh + 1) head h
      refine ⟨(head, spurious) :: failed, rest, by simp [h1], ?_, ?_, ?_⟩
      · simp only [Bool.not_eq_true] at hc
        simp [allFail, hc, h2]
      · rw [h3]
        simp only [lastSeen, List.length_cons]
        congr 1
        omega
      · simpa [lastSeen] using h4

/-- Without contention, i.e. when every compare-and-swap meets the head that was
loaded, the observed loop installs the node that the sequential loop installs. -/
theorem pushLoop_eq_pushObserved (cas : List Bool) (head : NodePtr) (fresh : Nat)
    (value : Int) :
    (pushLoop head fresh head value cas).map (fun s => s.m_head) =
      (pushObserved fresh head value (cas.map (fun b => (head, b)))).map Prod.fst := by
  induction cas generalizing fresh with
  | nil => simp [pushLoop, pushObserved]
  | cons b bs ih =>
    cases b with
    | false => simp [pushLoop, pushObserved, compare_exchange_weak_self]
    | true => simpa [pushLoop, pushObserved, compare_exchange_weak_self] using ih (fresh + 1)

/-- C10 (push linkage under CAS retries): whatever sequence of head values `push`
observes (the initial load, then the value delivered by each failed
`compare_exchange_weak`), when it returns the node it installed carries the
pushed value and its `next` is the value last observed, which is the pointer the
successful compare-and-swap replaced, never one from an earlier attempt; `push`
does return as soon as a compare-and-swap meets the value last observed and does
not fail spuriously; without contention a push on a stack holding the chain `c`
leaves `value :: c`; and in every state reached by concurrent threads a
compare-and-swap of `push` either installs the new node on top of the whole
chain that was under `m_head`, or leaves `m_head` as it is and refreshes the
thread's `old` with it. -/
theorem push_linkage (fresh : Nat) (old : NodePtr) (value : Int) :
    (∀ env inst replaced, pushObserved fresh old value env = some (inst, replaced) →
      ∃ failed rest, env = failed ++ (replaced, false) :: rest ∧ allFail old failed = true ∧
        inst = NodePtr.node (fresh + failed.length) (lastSeen old failed) value ∧
        replaced.same (lastSeen old failed) = true) ∧
    (∀ failed head rest, allFail old failed = true →
      head.same (lastSeen old failed) = true →
      pushObserved fresh old value (failed ++ (head, false) :: rest) =
        some (NodePtr.node (fresh + failed.length) (lastSeen old failed) value, head)) ∧
    (∀ (s : lf_stack) (cas : List Bool), false ∈ cas →
      ∃ a, s.push value cas = some ⟨NodePtr.node a s.m_head value, a + 1⟩ ∧
        (NodePtr.node a s.m_head value).values = value :: s.m_head.values) ∧
    (∀ (sys : System) (t : Nat) (spurious : Bool), sys.Reachable →
      sys.threads t = Local.in_push old value →
      ((sys.m_head.same old && !spurious) = true ∧
        (sys.step (Event.cas t spurious)).m_head = NodePtr.node sys.fresh sys.m_head value ∧
        (sys.step (Event.cas t spurious)).m_head.values = value :: sys.m_head.values ∧
        (sys.step (Event.cas t spurious)).threads t = Local.idle) ∨
      ((sys.m_head.same old && !spurious) = false ∧
        (sys.step (Event.cas t spurious)).m_head = sys.m_head ∧
        (sys.step (Event.cas t spurious)).threads t = Local.in_push sys.m_head value)) := by
  refine ⟨fun env inst replaced h => pushObserved_eq_some env fresh old value inst replaced h,
    ?_, ?_, ?_⟩
  · intro failed head rest h1 h2
    rw [pushObserved_append failed _ fresh old value h1, pushObserved_success _ _ _ _ _ h2]
  · intro s cas h
    obtain ⟨a, _, ha⟩ := pushLoop_some s.m_head value cas s.fresh h
    exact ⟨a, ha, by simp [NodePtr.values]⟩
  · intro sys t spurious hr ht
    have hinv := System.Reachable.inv sys hr
    by_cases hc : (sys.m_head.same old && !spurious) = true
    · left
      have hs : sys.m_head.same old = true := by
        simp only [Bool.and_eq_true] at hc
        exact hc.1
      have hold : Known (pushedNodes sys.log) old := by
        have := hinv.local_known t
        rwa [ht] at this
      have heq : sys.m_head = old :=
        eq_of_same _ _ _ hinv.addr_nodup hinv.head_known hold hs
      refine ⟨hc, ?_, ?_, ?_⟩
      · simp only [System.step, ht, compare_exchange_weak, hc, if_true]
        rw [heq]
      · simp only [System.step, ht, compare_exchange_weak, hc, if_true]
        rw [heq]
        simp [NodePtr.values]
      · simp [System.step, ht, compare_exchange_weak, hc, setThread]
    · right
      refine ⟨by simpa using hc, ?_, ?_⟩
      · simp [System.step, ht, compare_exchange_weak, hc]
      · simp [System.step, ht, compare_exchange_weak, hc, setThread]

/-- Instance of C10: `push(5)` loads null, then its compare-and-swaps meet a head
changed by another thread, a spurious failure and a head changed again before
the fourth succeeds: the node installed points to the head last observed. -/
theorem push_linkage_witness :
    pushObserved 10 NodePtr.null 5
        [(NodePtr.node 7 NodePtr.null 1, false), (NodePtr.node 7 NodePtr.null 1, true),
          (NodePtr.node 8 (NodePtr.node 7 NodePtr.null 1) 2, false),
          (NodePtr.node 8 (NodePtr.node 7 NodePtr.null 1) 2, false)] =
      some (NodePtr.node 13 (NodePtr.node 8 (NodePtr.node 7 NodePtr.null 1) 2) 5,
        NodePtr.node 8 (NodePtr.node 7 NodePtr.null 1) 2) :=
  (push_linkage 10 NodePtr.null 5).2.1
    [(NodePtr.node 7 NodePtr.null 1, false), (NodePtr.node 7 NodePtr.null 1, true),
      (NodePtr.node 8 (NodePtr.node 7 NodePtr.null 1) 2, false)]
    (NodePtr.node 8 (NodePtr.node 7 NodePtr.null 1) 2) [] (by decide) (by decide)

end lf_stack
